import Mathlib

/-!
# FS25 Mod Monitor — verification of the change-detection pipeline

Shallow embedding of `fs25_mod_monitor.py`. Python dicts that map mod
filenames to metadata records are modelled as association lists in
insertion order (Python dict iteration order); Python `None` inside a
record field is modelled as `Option.none`; machine-external effects
(SFTP listing, HTTP delivery, the state file) are modelled as explicit
inputs and outputs of the embedded functions.
-/

/-- One mod's metadata record, as built by `extract_mod_info` and stored in
the JSON snapshot. `title` and `author` come from `Element.text`, which is
Python `None` for an empty element, hence `Option String`; `version` is
always a string (`root.get('descVersion', 'Unknown')`); `filesize` is the
listing-reported byte count. -/
structure ModRecord where
  title : Option String
  version : String
  author : Option String
  filesize : Nat
deriving DecidableEq, Repr

/-- An inventory: Python dict from filename to record, in iteration order. -/
abbrev Inventory : Type := List (String × ModRecord)

/-- Dict key lookup (`previous_mods[filename]`); first match. A Python dict
has unique keys, so theorems that need uniqueness carry a `Nodup` hypothesis
on `invKeys`. -/
def invFind : Inventory → String → Option ModRecord
  | [], _ => none
  | (k, v) :: rest, name => if k = name then some v else invFind rest name

/-- The keys of an inventory, in iteration order. -/
def invKeys (inv : Inventory) : List String := inv.map Prod.fst

/-- One diff entry produced by `detect_changes`: the dicts
`{'type': 'added'/'updated'/'removed', 'filename': ..., 'info': ...}`,
where an update also carries `'old_version'`. -/
inductive Change where
  | added (filename : String) (info : ModRecord)
  | updated (filename : String) (info : ModRecord) (old_version : String)
  | removed (filename : String) (info : ModRecord)
deriving DecidableEq, Repr

/-- The `'filename'` key common to every change dict. -/
def Change.name : Change → String
  | .added fn _ => fn
  | .updated fn _ _ => fn
  | .removed fn _ => fn

/-- First loop of `detect_changes`: walk `current_mods` in iteration order,
emitting `added` for names absent from `previous_mods` and `updated` when
the version or the filesize differs. -/
def addedUpdatedChanges (previous : Inventory) : Inventory → List Change
  | [] => []
  | (fn, info) :: rest =>
    match invFind previous fn with
    | none => Change.added fn info :: addedUpdatedChanges previous rest
    | some prev =>
      if info.version ≠ prev.version ∨ info.filesize ≠ prev.filesize then
        Change.updated fn info prev.version :: addedUpdatedChanges previous rest
      else
        addedUpdatedChanges previous rest

/-- Second loop of `detect_changes`: walk `previous_mods`, emitting
`removed` (with the last-known record) for names absent from
`current_mods`. -/
def removedChanges (current : Inventory) : Inventory → List Change
  | [] => []
  | (fn, info) :: rest =>
    if (invFind current fn).isNone then
      Change.removed fn info :: removedChanges current rest
    else
      removedChanges current rest

/-- `detect_changes(previous_mods, current_mods)`: the two loops append into
one list, added/updated first, removals second. -/
def detect_changes (previous current : Inventory) : List Change :=
  addedUpdatedChanges previous current ++ removedChanges current previous

/-- Round a nonnegative rational to the nearest integer, ties to even —
the rounding CPython's fixed-point float formatting performs on the exact
binary value. -/
def roundHalfEven (q : ℚ) : ℤ :=
  let f := ⌊q⌋
  let r := q - f
  if r < 1 / 2 then f
  else if 1 / 2 < r then f + 1
  else if f % 2 = 0 then f else f + 1

/-- Render a nonnegative rational with exactly two decimal digits, the
Python format `f"{x:.2f}"` on an exactly-represented value. -/
def twoDec (q : ℚ) : String :=
  let c := (roundHalfEven (100 * q)).toNat
  Nat.repr (c / 100) ++ "." ++ (if c % 100 < 10 then "0" else "") ++ Nat.repr (c % 100)

/-- The `for unit in ['B', 'KB', 'MB', 'GB']` loop of `format_file_size`:
return `f"{size:.2f} {unit}"` once the running size drops below 1024, else
divide by 1024 and move to the next unit; after the loop the unit is TB. -/
def fsLoop : ℚ → List String → String
  | q, [] => twoDec q ++ " TB"
  | q, u :: us => if q < 1024 then twoDec q ++ " " ++ u else fsLoop (q / 1024) us

/-- `format_file_size(size_bytes)` on an integer byte count. The Python
code runs on floats; for counts below 2^53 the float value is exact and
each division by 1024 is exact, so the rational model coincides with the
float computation. -/
def format_file_size (n : ℕ) : String :=
  fsLoop (n : ℚ) ["B", "KB", "MB", "GB"]

/-- Unit-selection characterisation used to state the spec sentence
"divide by 1024 repeatedly until below 1024, two-decimal precision, units
B/KB/MB/GB/TB capped at TB". Stated from the spec's words, to be compared
with `format_file_size`. -/
def formatSizeSpec (n : ℕ) : String :=
  if (n : ℚ) < 1024 then twoDec (n : ℚ) ++ " B"
  else if (n : ℚ) < 1024 ^ 2 then twoDec ((n : ℚ) / 1024) ++ " KB"
  else if (n : ℚ) < 1024 ^ 3 then twoDec ((n : ℚ) / 1024 ^ 2) ++ " MB"
  else if (n : ℚ) < 1024 ^ 4 then twoDec ((n : ℚ) / 1024 ^ 3) ++ " GB"
  else twoDec ((n : ℚ) / 1024 ^ 4) ++ " TB"

/-- Python `s.endswith(t)` on the character sequence: the last `|t|`
characters of `s` are exactly `t`. -/
def strHasSuffix (s t : String) : Bool :=
  decide (t.data.length ≤ s.data.length)
    && decide (s.data.drop (s.data.length - t.data.length) = t.data)

/-- Python `s.lower()` (ASCII-adequate, which covers the fixed patterns
`'moddesc.xml'` and `'.zip'` the monitor compares against). -/
def lowerStr (s : String) : String :=
  String.mk (s.data.map Char.toLower)

/-- Index of the last occurrence of `c`, as in Python `str.rfind`. -/
def lastIdxOf (c : Char) : List Char → Option Nat
  | [] => none
  | a :: as =>
    match lastIdxOf c as with
    | some i => some (i + 1)
    | none => if a = c then some 0 else none

/-- `PurePath.stem` on one path component: the name with its last suffix
removed, where a dot at position 0 or at the very end does not start a
suffix (CPython: keep `name[:i]` exactly when `0 < i < len(name) - 1`). -/
def stemOfName (name : String) : String :=
  match lastIdxOf '.' name.data with
  | none => name
  | some i =>
    if 0 < i ∧ i < name.data.length - 1 then String.mk (name.data.take i) else name

/-- `Path(p).name` for a POSIX remote path: the part after the last `/`. -/
def afterLastSlash (cs : List Char) : List Char :=
  match lastIdxOf '/' cs with
  | none => cs
  | some i => cs.drop (i + 1)

/-- `Path(remote_file_path).stem` for a POSIX remote path: last `/`-separated
component, minus its extension. -/
def pathStem (p : String) : String :=
  stemOfName (String.mk (afterLastSlash p.data))

mutual
/-- An `xml.etree.ElementTree` element: tag, attribute list, text content
(`None` when the element is empty), children in document order. -/
inductive XmlElem : Type where
  | mk (tag : String) (attribs : List (String × String)) (text : Option String)
      (children : XmlForest)
/-- A list of sibling elements (separate inductive to keep the recursion
structural). -/
inductive XmlForest : Type where
  | nil
  | cons (head : XmlElem) (tail : XmlForest)
end

/-- The element's tag. -/
def XmlElem.tag : XmlElem → String
  | .mk t _ _ _ => t

/-- The element's text, Python `elem.text` (`none` for an empty element). -/
def XmlElem.text : XmlElem → Option String
  | .mk _ _ tx _ => tx

/-- `elem.get(key)`: first attribute with that name. -/
def XmlElem.getAttr : XmlElem → String → Option String
  | .mk _ attrs _ _, key => attrs.lookup key

/-- The element's direct children as a list. -/
def XmlElem.childList : XmlElem → List XmlElem
  | .mk _ _ _ ch => forestList ch
where
  forestList : XmlForest → List XmlElem
    | .nil => []
    | .cons e t => e :: forestList t

mutual
/-- All proper descendants of an element, in document order — the nodes a
`.//` ElementPath step ranges over. -/
def properDescendants : XmlElem → List XmlElem
  | .mk _ _ _ ch => forestDescendants ch
/-- Document-order flattening of a forest: each element followed by its
descendants. -/
def forestDescendants : XmlForest → List XmlElem
  | .nil => []
  | .cons e t => e :: properDescendants e ++ forestDescendants t
end

/-- `root.find('.//tag')`: first proper descendant with the given tag. -/
def findDescendant (root : XmlElem) (t : String) : Option XmlElem :=
  (properDescendants root).find? (fun e => e.tag == t)

/-- `root.find('.//title/en')`: among descendants tagged `title` in document
order, the first `en` child (CPython's ElementPath evaluates `//title` in
document order and then maps each match over its `en` children). -/
def findTitleEn (root : XmlElem) : Option XmlElem :=
  (((properDescendants root).filter (fun e => e.tag == "title")).map
    (fun e => e.childList.filter (fun c => c.tag == "en"))).flatten.head?

/-- The remote archive as `extract_mod_info` can observe it once every
exception path is made explicit: `fail` covers a download error or a byte
blob that is not a readable zip; `ok` carries the container's entry names
(`zip_ref.namelist()`) and, for each entry, the XML document it parses to
(`none` when reading or `ET.parse` raises). -/
inductive ZipData where
  | fail
  | ok (names : List String) (entryXml : String → Option XmlElem)

/-- The record every failure path of `extract_mod_info` returns. -/
def fallbackRecord (remote_file_path : String) (file_size : Nat) : ModRecord :=
  { title := some (pathStem remote_file_path)
    version := "Unknown"
    author := some "Unknown"
    filesize := file_size }

/-- `extract_mod_info(client, conn_type, remote_file_path, file_size)`,
with the transport and container I/O folded into `zd : ZipData`. Mirrors
the source: find the first entry whose lowercased name ends in
`moddesc.xml`; on any failure return the fallback record; on success take
`title` from `.//title/en` else `.//title` else the path stem, `version`
from the root's `descVersion` attribute defaulting to `"Unknown"`, and
`author` from `.//author` defaulting to `"Unknown"` when the element is
absent (an element present with empty text contributes its `text`, which
is `None`). -/
def extract_mod_info (zd : ZipData) (remote_file_path : String) (file_size : Nat) :
    ModRecord :=
  match zd with
  | .fail => fallbackRecord remote_file_path file_size
  | .ok names entryXml =>
    match names.find? (fun n => strHasSuffix (lowerStr n) "moddesc.xml") with
    | none => fallbackRecord remote_file_path file_size
    | some m =>
      match entryXml m with
      | none => fallbackRecord remote_file_path file_size
      | some root =>
        { title :=
            match findTitleEn root with
            | some t => t.text
            | none =>
              match findDescendant root "title" with
              | some t => t.text
              | none => some (pathStem remote_file_path)
          version := (root.getAttr "descVersion").getD "Unknown"
          author :=
            match findDescendant root "author" with
            | some a => a.text
            | none => some "Unknown"
          filesize := file_size }

/-- The inputs on which `extract_mod_info` takes one of its failure exits:
unreadable container, no descriptor entry, or descriptor that fails to
parse. -/
def extractionFailed : ZipData → Bool
  | .fail => true
  | .ok names entryXml =>
    match names.find? (fun n => strHasSuffix (lowerStr n) "moddesc.xml") with
    | none => true
    | some m => (entryXml m).isNone

/-- The JSON documents the snapshot file can hold: `json.dump` of an
inventory emits an object of objects of strings, integers and nulls
(`None` serialises to `null`). -/
inductive Json where
  | null
  | str (s : String)
  | num (n : Int)
  | obj (fields : List (String × Json))
deriving Repr

/-- Encode one record's field of type `Option String` (`None` → `null`). -/
def optStrToJson : Option String → Json
  | none => Json.null
  | some s => Json.str s

/-- `json.dump` of one record dict. -/
def recordToJson (r : ModRecord) : Json :=
  Json.obj
    [("title", optStrToJson r.title),
     ("version", Json.str r.version),
     ("author", optStrToJson r.author),
     ("filesize", Json.num r.filesize)]

/-- `json.dump` of a whole inventory dict, keys in iteration order. -/
def encodeInv (inv : Inventory) : Json :=
  Json.obj (inv.map (fun p => (p.1, recordToJson p.2)))

/-- Read back an `Option String` field (`null` → `None`). -/
def jsonToOptStr : Json → Option (Option String)
  | Json.null => some none
  | Json.str s => some (some s)
  | _ => none

/-- Interpret a loaded JSON value as one record dict, reading the four keys
the monitor accesses (`info['title']` and so on). -/
def jsonToRecord : Json → Option ModRecord
  | Json.obj fs =>
    match fs.lookup "title", fs.lookup "version", fs.lookup "author",
        fs.lookup "filesize" with
    | some tj, some (Json.str v), some aj, some (Json.num n) =>
      match jsonToOptStr tj, jsonToOptStr aj with
      | some t, some a =>
        if 0 ≤ n then some { title := t, version := v, author := a, filesize := n.toNat }
        else none
      | _, _ => none
    | _, _, _, _ => none
  | _ => none

/-- Interpret the entries of a loaded JSON object as inventory entries. -/
def invOfEntries : List (String × Json) → Option Inventory
  | [] => some []
  | (k, v) :: rest =>
    match jsonToRecord v, invOfEntries rest with
    | some r, some tl => some ((k, r) :: tl)
    | _, _ => none

/-- Interpret a loaded JSON document as an inventory mapping. -/
def invOfJson : Json → Option Inventory
  | Json.obj fs => invOfEntries fs
  | _ => none

/-- What the state file can look like to the next `open`/`json.load`:
missing, present but not parseable as JSON, or a parsed document.
`unreadable` in particular covers every strict prefix of a serialised
object — a truncated in-place rewrite — since a proper prefix of a JSON
object text is never itself valid JSON. -/
inductive FileContent where
  | absent
  | unreadable
  | readable (j : Json)

/-- `load_previous_state()`: missing file → `{}`; `json.load` failure is
caught and yields `{}`; otherwise the parsed document. -/
def load_previous_state : FileContent → Json
  | FileContent.absent => Json.obj []
  | FileContent.unreadable => Json.obj []
  | FileContent.readable j => j

/-- `save_current_state(mods)`: the file content after the `json.dump`
completes. -/
def save_current_state (mods : Inventory) : FileContent :=
  FileContent.readable (encodeInv mods)

/-- The observable file states during `save_current_state`:
`open(STATE_FILE, 'w')` truncates the file in place (the old content is
gone and the empty file is not valid JSON), then the serialised object is
written; an interruption strictly before the final byte leaves a proper
prefix, which is not valid JSON either. -/
def save_write_states (mods : Inventory) : List FileContent :=
  [FileContent.unreadable, save_current_state mods]

/-- What one `requests.post` can come back with: a status code, or a raised
exception. -/
inductive HttpResult where
  | ok (status : Nat)
  | exn
deriving DecidableEq

/-- Observable outcome of `send_discord_notification`: how many HTTP posts
were issued, whether the success line was printed (`status_code == 204`),
and whether an exception escaped the function. -/
structure NotifyResult where
  requests : Nat
  reportedSuccess : Bool
  raised : Bool
deriving DecidableEq, Repr

/-- `send_discord_notification(changes, current_mods)` with the HTTP layer
as an explicit input: empty change list returns immediately before any
request; otherwise exactly one post is made, classified as success exactly
on status 204, and both the non-204 branch and the exception branch only
print a failure line — nothing propagates. (The embed construction between
the emptiness check and the post is pure rendering with no effect on
control flow and is elided.) -/
def send_discord_notification (changes : List Change) (_current : Inventory)
    (http : HttpResult) : NotifyResult :=
  if changes.isEmpty then
    { requests := 0, reportedSuccess := false, raised := false }
  else
    match http with
    | HttpResult.ok status =>
      { requests := 1, reportedSuccess := status == 204, raised := false }
    | HttpResult.exn =>
      { requests := 1, reportedSuccess := false, raised := false }

/-- One remote directory entry as `listdir_attr` reports it, together with
the archive bytes a later fetch of it resolves to. -/
structure RemoteFile where
  filename : String
  st_size : Nat
  data : ZipData

/-- Python dict assignment `current_mods[filename] = mod_info`: replace in
place if the key exists, else append. -/
def dictInsert (inv : Inventory) (k : String) (v : ModRecord) : Inventory :=
  if (invFind inv k).isSome then
    inv.map (fun p => if p.1 = k then (k, v) else p)
  else
    inv ++ [(k, v)]

/-- `get_current_mods(client, conn_type)` over the SFTP listing, with the
listing outcome explicit: `none` models `listdir_attr` raising, which the
surrounding `except` turns into an empty dict; otherwise each `.zip` entry
(case-insensitively) is scanned with `extract_mod_info` and inserted. -/
def get_current_mods (modsPath : String) : Option (List RemoteFile) → Inventory
  | none => []
  | some files =>
    files.foldl
      (fun acc f =>
        if strHasSuffix (lowerStr f.filename) ".zip" then
          dictInsert acc f.filename
            (extract_mod_info f.data (modsPath ++ "/" ++ f.filename) f.st_size)
        else acc)
      []

/-- The previous inventory as `main` sees it: the loaded JSON document read
as a mapping. Snapshots written by `save_current_state` always decode; a
hand-edited document of another shape would break the Python run later,
and is read here as the empty mapping. -/
def previousInvOf (f : FileContent) : Inventory :=
  (invOfJson (load_previous_state f)).getD []

/-- The observable outcome of one `main()` run after a connection was
established. -/
structure RunResult where
  finalFile : FileContent
  notify : Option NotifyResult

/-- The body of `main()` after `connect_server` succeeds: scan, load the
previous snapshot, diff, notify only when the change list is non-empty,
then unconditionally overwrite the snapshot with the current inventory. -/
def mainRun (modsPath : String) (listing : Option (List RemoteFile))
    (stateFile : FileContent) (http : HttpResult) : RunResult :=
  let current := get_current_mods modsPath listing
  let previous := previousInvOf stateFile
  let changes := detect_changes previous current
  { finalFile := save_current_state current
    notify :=
      if changes.isEmpty then none
      else some (send_discord_notification changes current http) }

/-- Whether the first `detect_changes` loop emits a change for this
`current` entry: its name is new, or the version/filesize pair moved. -/
def emitsAddedUpdated (previous : Inventory) (p : String × ModRecord) : Bool :=
  match invFind previous p.1 with
  | none => true
  | some q => decide (p.2.version ≠ q.version ∨ p.2.filesize ≠ q.filesize)

/-- The change the first loop emits for an entry it reports. -/
def addedUpdatedChangeFor (previous : Inventory) (p : String × ModRecord) :
    Option Change :=
  match invFind previous p.1 with
  | none => some (Change.added p.1 p.2)
  | some q =>
    if p.2.version ≠ q.version ∨ p.2.filesize ≠ q.filesize then
      some (Change.updated p.1 p.2 q.version)
    else none

/-- Kind discriminator: `change['type'] == 'added'`. -/
def Change.isAdded : Change → Bool
  | .added _ _ => true
  | _ => false

/-- Kind discriminator: `change['type'] == 'updated'`. -/
def Change.isUpdated : Change → Bool
  | .updated _ _ _ => true
  | _ => false

/-- Kind discriminator: `change['type'] == 'removed'`. -/
def Change.isRemoved : Change → Bool
  | .removed _ _ => true
  | _ => false

/-! ## Helper lemmas -/

/-- Keys of a cons cell. -/
theorem invKeys_cons (p : String × ModRecord) (rest : Inventory) :
    invKeys (p :: rest) = p.1 :: invKeys rest := rfl

/-- Unfolding of the first loop on a cons cell. -/
theorem AU_cons (previous : Inventory) (fn : String) (info : ModRecord) (rest : Inventory) :
    addedUpdatedChanges previous ((fn, info) :: rest) =
      match invFind previous fn with
      | none => Change.added fn info :: addedUpdatedChanges previous rest
      | some prev =>
        if info.version ≠ prev.version ∨ info.filesize ≠ prev.filesize then
          Change.updated fn info prev.version :: addedUpdatedChanges previous rest
        else addedUpdatedChanges previous rest := rfl

/-- Unfolding of the removal loop on a cons cell. -/
theorem RC_cons (current : Inventory) (fn : String) (info : ModRecord) (rest : Inventory) :
    removedChanges current ((fn, info) :: rest) =
      if (invFind current fn).isNone then
        Change.removed fn info :: removedChanges current rest
      else removedChanges current rest := rfl

/-- Unfolding of dict lookup on a cons cell. -/
theorem invFind_cons (fn : String) (info : ModRecord) (rest : Inventory) (name : String) :
    invFind ((fn, info) :: rest) name = if fn = name then some info else invFind rest name := rfl

/-- Every change the first loop emits is named after a `current` entry. -/
theorem mem_addedUpdated_name {previous : Inventory} :
    ∀ {current : Inventory} {c : Change}, c ∈ addedUpdatedChanges previous current →
      c.name ∈ invKeys current := by
  intro current
  induction current with
  | nil => intro c h; simp [addedUpdatedChanges] at h
  | cons p rest ih =>
    intro c h
    obtain ⟨fn, info⟩ := p
    rw [invKeys_cons]
    cases hf : invFind previous fn with
    | none =>
      simp only [AU_cons, hf] at h
      rcases List.mem_cons.1 h with h1 | h2
      · subst h1; exact List.mem_cons_self _ _
      · exact List.mem_cons_of_mem _ (ih h2)
    | some prev =>
      simp only [AU_cons, hf] at h
      by_cases hcond : info.version ≠ prev.version ∨ info.filesize ≠ prev.filesize
      · rw [if_pos hcond] at h
        rcases List.mem_cons.1 h with h1 | h2
        · subst h1; exact List.mem_cons_self _ _
        · exact List.mem_cons_of_mem _ (ih h2)
      · rw [if_neg hcond] at h
        exact List.mem_cons_of_mem _ (ih h)

/-- Every change the removal loop emits is a removal, is named after a
`previous` entry, and its name is absent from `current`. -/
theorem mem_removedChanges_shape {current : Inventory} :
    ∀ {previous : Inventory} {c : Change}, c ∈ removedChanges current previous →
      c.isRemoved = true ∧ invFind current c.name = none ∧ c.name ∈ invKeys previous := by
  intro previous
  induction previous with
  | nil => intro c h; simp [removedChanges] at h
  | cons p rest ih =>
    intro c h
    obtain ⟨fn, info⟩ := p
    rw [invKeys_cons]
    rw [RC_cons] at h
    by_cases hf : (invFind current fn).isNone
    · rw [if_pos hf] at h
      rcases List.mem_cons.1 h with h1 | h2
      · subst h1
        exact ⟨rfl, Option.isNone_iff_eq_none.1 hf, List.mem_cons_self _ _⟩
      · obtain ⟨ha, hb, hcc⟩ := ih h2
        exact ⟨ha, hb, List.mem_cons_of_mem _ hcc⟩
    · rw [if_neg hf] at h
      obtain ⟨ha, hb, hcc⟩ := ih h
      exact ⟨ha, hb, List.mem_cons_of_mem _ hcc⟩

/-- With unique keys in `current`, the first loop contains the updated
change for an entry present in both inventories exactly when the version
or the filesize differs. -/
theorem mem_updated_AU {previous : Inventory} {name : String} {rp : ModRecord} :
    ∀ {current : Inventory} {rc : ModRecord}, (invKeys current).Nodup →
      invFind current name = some rc → invFind previous name = some rp →
      (Change.updated name rc rp.version ∈ addedUpdatedChanges previous current ↔
        (rc.version ≠ rp.version ∨ rc.filesize ≠ rp.filesize)) := by
  intro current
  induction current with
  | nil => intro rc _ hcur; simp [invFind] at hcur
  | cons p rest ih =>
    intro rc hnd hcur hprev
    obtain ⟨fn, info⟩ := p
    rw [invKeys_cons] at hnd
    have hnd1 := (List.nodup_cons.1 hnd).1
    have hnd2 := (List.nodup_cons.1 hnd).2
    rw [invFind_cons] at hcur
    by_cases heq : fn = name
    · subst heq
      rw [if_pos rfl] at hcur
      have hrc : rc = info := by injection hcur with h; exact h.symm
      subst hrc
      simp only [AU_cons, hprev]
      by_cases hcond : rc.version ≠ rp.version ∨ rc.filesize ≠ rp.filesize
      · rw [if_pos hcond]
        exact ⟨fun _ => hcond, fun _ => List.mem_cons_self _ _⟩
      · rw [if_neg hcond]
        constructor
        · intro hmem
          exact absurd (mem_addedUpdated_name hmem) hnd1
        · intro hc; exact absurd hc hcond
    · rw [if_neg heq] at hcur
      have hrest := ih hnd2 hcur hprev
      cases hf : invFind previous fn with
      | none =>
        simp only [AU_cons, hf]
        rw [List.mem_cons]
        constructor
        · intro h
          rcases h with h1 | h2
          · exact absurd (congrArg Change.name h1).symm heq
          · exact hrest.1 h2
        · intro h; exact Or.inr (hrest.2 h)
      | some prev =>
        simp only [AU_cons, hf]
        by_cases hcond : info.version ≠ prev.version ∨ info.filesize ≠ prev.filesize
        · rw [if_pos hcond, List.mem_cons]
          constructor
          · intro h
            rcases h with h1 | h2
            · exact absurd (congrArg Change.name h1).symm heq
            · exact hrest.1 h2
          · intro h; exact Or.inr (hrest.2 h)
        · rw [if_neg hcond]
          exact hrest

/-- With unique keys in `current`, an entry present in both inventories
with equal version and filesize contributes nothing to the first loop. -/
theorem AU_unchanged_no_emit {previous : Inventory} {name : String} {rp : ModRecord} :
    ∀ {current : Inventory} {rc : ModRecord}, (invKeys current).Nodup →
      invFind current name = some rc → invFind previous name = some rp →
      rc.version = rp.version → rc.filesize = rp.filesize →
      ∀ c ∈ addedUpdatedChanges previous current, c.name ≠ name := by
  intro current
  induction current with
  | nil => intro rc _ hcur; simp [invFind] at hcur
  | cons p rest ih =>
    intro rc hnd hcur hprev hv hs c hc
    obtain ⟨fn, info⟩ := p
    rw [invKeys_cons] at hnd
    have hnd1 := (List.nodup_cons.1 hnd).1
    have hnd2 := (List.nodup_cons.1 hnd).2
    rw [invFind_cons] at hcur
    by_cases heq : fn = name
    · subst heq
      rw [if_pos rfl] at hcur
      have hrc : rc = info := by injection hcur with h; exact h.symm
      subst hrc
      simp only [AU_cons, hprev] at hc
      have hcond : ¬ (rc.version ≠ rp.version ∨ rc.filesize ≠ rp.filesize) := by
        push_neg
        exact ⟨hv, hs⟩
      rw [if_neg hcond] at hc
      intro hname
      exact hnd1 (hname ▸ mem_addedUpdated_name hc)
    · rw [if_neg heq] at hcur
      cases hf : invFind previous fn with
      | none =>
        simp only [AU_cons, hf] at hc
        rcases List.mem_cons.1 hc with h1 | h2
        · subst h1; exact heq
        · exact ih hnd2 hcur hprev hv hs c h2
      | some prev =>
        simp only [AU_cons, hf] at hc
        by_cases hcond : info.version ≠ prev.version ∨ info.filesize ≠ prev.filesize
        · rw [if_pos hcond] at hc
          rcases List.mem_cons.1 hc with h1 | h2
          · subst h1; exact heq
          · exact ih hnd2 hcur hprev hv hs c h2
        · rw [if_neg hcond] at hc
          exact ih hnd2 hcur hprev hv hs c hc

/-- The first loop is the order-preserving `filterMap` of `current`. -/
theorem AU_eq_filterMap (previous : Inventory) :
    ∀ current : Inventory, addedUpdatedChanges previous current
      = current.filterMap (addedUpdatedChangeFor previous) := by
  intro current
  induction current with
  | nil => rfl
  | cons p rest ih =>
    obtain ⟨fn, info⟩ := p
    cases hf : invFind previous fn with
    | none =>
      simp only [AU_cons, hf, List.filterMap_cons, addedUpdatedChangeFor, ih]
    | some prev =>
      by_cases hcond : info.version ≠ prev.version ∨ info.filesize ≠ prev.filesize
      · simp only [AU_cons, hf, List.filterMap_cons, addedUpdatedChangeFor, if_pos hcond, ih]
      · simp only [AU_cons, hf, List.filterMap_cons, addedUpdatedChangeFor, if_neg hcond, ih]

/-- The removal loop is the order-preserving filter-then-map of `previous`. -/
theorem RC_eq_filter_map (current : Inventory) :
    ∀ previous : Inventory, removedChanges current previous
      = (previous.filter (fun p => (invFind current p.1).isNone)).map
          (fun p => Change.removed p.1 p.2) := by
  intro previous
  induction previous with
  | nil => rfl
  | cons p rest ih =>
    obtain ⟨fn, info⟩ := p
    by_cases hf : (invFind current fn).isNone
    · simp [RC_cons, hf, ih]
    · simp [RC_cons, hf, ih]

/-- Names of the first loop's output, as a filter of `current`'s keys. -/
theorem AU_names (previous : Inventory) :
    ∀ current : Inventory, (addedUpdatedChanges previous current).map Change.name
      = (current.filter (emitsAddedUpdated previous)).map Prod.fst := by
  intro current
  induction current with
  | nil => rfl
  | cons p rest ih =>
    obtain ⟨fn, info⟩ := p
    cases hf : invFind previous fn with
    | none =>
      simp only [AU_cons, hf, List.map_cons, List.filter_cons, emitsAddedUpdated, ih]
      rfl
    | some prev =>
      by_cases hcond : info.version ≠ prev.version ∨ info.filesize ≠ prev.filesize
      · simp only [AU_cons, hf, if_pos hcond, List.map_cons, List.filter_cons,
          emitsAddedUpdated, ih]
        rw [if_pos (by simpa using hcond)]
        rfl
      · simp only [AU_cons, hf, if_neg hcond, List.filter_cons, emitsAddedUpdated, ih]
        rw [if_neg (by simpa using hcond)]

/-- Names of the removal loop's output, as a filter of `previous`'s keys. -/
theorem RC_names (current : Inventory) :
    ∀ previous : Inventory, (removedChanges current previous).map Change.name
      = (previous.filter (fun p => (invFind current p.1).isNone)).map Prod.fst := by
  intro previous
  rw [RC_eq_filter_map, List.map_map]
  rfl

/-- A key of the inventory always resolves under lookup. -/
theorem invFind_isSome_of_mem_keys :
    ∀ {inv : Inventory} {name : String}, name ∈ invKeys inv → (invFind inv name).isSome := by
  intro inv
  induction inv with
  | nil => intro name h; simp [invKeys] at h
  | cons p rest ih =>
    intro name h
    obtain ⟨fn, info⟩ := p
    rw [invKeys_cons, List.mem_cons] at h
    rw [invFind_cons]
    by_cases heq : fn = name
    · rw [if_pos heq]; rfl
    · rw [if_neg heq]
      rcases h with h1 | h2
      · exact absurd h1.symm heq
      · exact ih h2

/-- Against an empty current inventory every previous entry is removed. -/
theorem removedChanges_nil_current :
    ∀ previous : Inventory, removedChanges [] previous
      = previous.map (fun p => Change.removed p.1 p.2) := by
  intro previous
  induction previous with
  | nil => rfl
  | cons p rest ih =>
    obtain ⟨fn, info⟩ := p
    simp [RC_cons, invFind, ih]

/-- One record survives the JSON encode/decode cycle unchanged. -/
theorem jsonToRecord_roundtrip (r : ModRecord) : jsonToRecord (recordToJson r) = some r := by
  obtain ⟨t, v, a, s⟩ := r
  cases t <;> cases a <;>
    simp [recordToJson, jsonToRecord, optStrToJson, jsonToOptStr, List.lookup]

/-- A whole inventory survives the JSON encode/decode cycle unchanged. -/
theorem invOfJson_encodeInv (inv : Inventory) : invOfJson (encodeInv inv) = some inv := by
  have h : ∀ l : Inventory,
      invOfEntries (l.map (fun p => (p.1, recordToJson p.2))) = some l := by
    intro l
    induction l with
    | nil => rfl
    | cons p rest ih =>
      simp [invOfEntries, jsonToRecord_roundtrip, ih]
  exact h inv

/-- Every exit of `extract_mod_info` carries the caller-supplied size. -/
theorem extract_mod_info_filesize (zd : ZipData) (path : String) (size : Nat) :
    (extract_mod_info zd path size).filesize = size := by
  cases zd with
  | fail => rfl
  | ok names entryXml =>
    cases hm : names.find? (fun n => strHasSuffix (lowerStr n) "moddesc.xml") with
    | none => simp [extract_mod_info, hm, fallbackRecord]
    | some m =>
      cases hx : entryXml m with
      | none => simp [extract_mod_info, hm, hx, fallbackRecord]
      | some root => simp [extract_mod_info, hm, hx]

/-- Rounding an integer-valued rational is the identity. -/
theorem roundHalfEven_intCast (m : ℤ) : roundHalfEven (m : ℚ) = m := by
  simp [roundHalfEven]

/-- Unfolding of the unit loop on a cons cell. -/
theorem fsLoop_cons (q : ℚ) (u : String) (us : List String) :
    fsLoop q (u :: us) = if q < 1024 then twoDec q ++ " " ++ u else fsLoop (q / 1024) us := rfl

/-- Dividing by one more factor of 1024 stays below 1024 exactly when the
original value is below the next power. -/
theorem div_pow_lt_1024 (q : ℚ) (k : ℕ) : q / 1024 ^ k < 1024 ↔ q < 1024 ^ (k + 1) := by
  rw [div_lt_iff₀ (by positivity : (0:ℚ) < 1024 ^ k), ← pow_succ']

/-! ## Claim theorems -/

/-- C1: for an entry name present in both inventories (with the current
inventory's keys unique, as for a Python dict), `detect_changes` contains
the updated change carrying the current record and the previous record's
version if and only if the version strings or the filesize values differ;
and when version and filesize both coincide, no change of any kind is
emitted for that name, whatever the title or author fields hold. -/
theorem detect_changes_updated_iff (previous current : Inventory)
    (hc : (invKeys current).Nodup) (name : String) (rp rc : ModRecord)
    (hprev : invFind previous name = some rp) (hcur : invFind current name = some rc) :
    (Change.updated name rc rp.version ∈ detect_changes previous current
      ↔ (rc.version ≠ rp.version ∨ rc.filesize ≠ rp.filesize))
    ∧ ((rc.version = rp.version ∧ rc.filesize = rp.filesize) →
        ∀ c ∈ detect_changes previous current, c.name ≠ name) := by
  constructor
  · rw [detect_changes, List.mem_append]
    constructor
    · intro h
      rcases h with h1 | h2
      · exact (mem_updated_AU hc hcur hprev).1 h1
      · have := (mem_removedChanges_shape h2).1
        simp [Change.isRemoved] at this
    · intro h
      exact Or.inl ((mem_updated_AU hc hcur hprev).2 h)
  · rintro ⟨hv, hs⟩ c hcmem
    rw [detect_changes, List.mem_append] at hcmem
    rcases hcmem with h1 | h2
    · exact AU_unchanged_no_emit hc hcur hprev hv hs c h1
    · intro hname
      have := (mem_removedChanges_shape h2).2.1
      rw [hname, hcur] at this
      exact Option.noConfusion this

/-- Witness for `detect_changes_updated_iff`: a version bump from 1.0 to
1.1 on `A.zip` yields the updated change. -/
theorem detect_changes_updated_iff_witness :
    (invKeys [("A.zip", ModRecord.mk (some "T") "1.1" (some "X") 12)]).Nodup
    ∧ invFind [("A.zip", ModRecord.mk (some "T") "1.0" (some "X") 10)] "A.zip"
        = some (ModRecord.mk (some "T") "1.0" (some "X") 10)
    ∧ invFind [("A.zip", ModRecord.mk (some "T") "1.1" (some "X") 12)] "A.zip"
        = some (ModRecord.mk (some "T") "1.1" (some "X") 12)
    ∧ Change.updated "A.zip" (ModRecord.mk (some "T") "1.1" (some "X") 12) "1.0"
        ∈ detect_changes [("A.zip", ModRecord.mk (some "T") "1.0" (some "X") 10)]
            [("A.zip", ModRecord.mk (some "T") "1.1" (some "X") 12)] := by
  refine ⟨by decide, by decide, by decide, ?_⟩
  exact (detect_changes_updated_iff [("A.zip", ModRecord.mk (some "T") "1.0" (some "X") 10)]
      [("A.zip", ModRecord.mk (some "T") "1.1" (some "X") 12)] (by decide) "A.zip"
      (ModRecord.mk (some "T") "1.0" (some "X") 10)
      (ModRecord.mk (some "T") "1.1" (some "X") 12) (by decide) (by decide)).1.2
    (by decide)

/-- C5: `detect_changes` is the added/updated changes in the iteration
order of `current` followed by the removals (each carrying the last-known
record) in the iteration order of `previous` restricted to names absent
from `current`; under unique keys the resulting names are pairwise
distinct (at most one change per entry name), and every emitted change has
exactly one kind. -/
theorem detect_changes_order_and_uniqueness (previous current : Inventory)
    (hp : (invKeys previous).Nodup) (hc : (invKeys current).Nodup) :
    detect_changes previous current
        = current.filterMap (addedUpdatedChangeFor previous)
          ++ (previous.filter (fun p => (invFind current p.1).isNone)).map
              (fun p => Change.removed p.1 p.2)
    ∧ ((detect_changes previous current).map Change.name).Nodup
    ∧ ∀ c ∈ detect_changes previous current,
        c.isAdded.toNat + c.isUpdated.toNat + c.isRemoved.toNat = 1 := by
  refine ⟨?_, ?_, ?_⟩
  · rw [detect_changes, AU_eq_filterMap, RC_eq_filter_map]
  · rw [detect_changes, List.map_append]
    apply List.Nodup.append
    · rw [AU_names]
      exact hc.sublist ((List.filter_sublist _).map Prod.fst)
    · rw [RC_names]
      exact hp.sublist ((List.filter_sublist _).map Prod.fst)
    · intro a ha hb
      rw [AU_names] at ha
      rw [RC_names] at hb
      obtain ⟨p, hpmem, hpa⟩ := List.mem_map.1 ha
      obtain ⟨q, hqmem, hqa⟩ := List.mem_map.1 hb
      have hsome : (invFind current a).isSome := by
        apply invFind_isSome_of_mem_keys
        rw [← hpa]
        exact List.mem_map_of_mem Prod.fst (List.mem_of_mem_filter hpmem)
      have hnone : (invFind current q.1).isNone := by
        simpa using List.of_mem_filter hqmem
      rw [hqa] at hnone
      rw [Option.isNone_iff_eq_none.1 hnone] at hsome
      simp at hsome
  · intro c _
    cases c <;> rfl

/-- Witness for `detect_changes_order_and_uniqueness`: a diff mixing an
update, a removal and an addition has pairwise distinct change names. -/
theorem detect_changes_order_and_uniqueness_witness :
    (invKeys [("A.zip", ModRecord.mk (some "A") "1.0" (some "X") 1),
              ("B.zip", ModRecord.mk (some "B") "1.0" (some "Y") 2)]).Nodup
    ∧ (invKeys [("A.zip", ModRecord.mk (some "A") "1.1" (some "X") 3),
                ("C.zip", ModRecord.mk (some "C") "1.0" (some "Z") 4)]).Nodup
    ∧ ((detect_changes
          [("A.zip", ModRecord.mk (some "A") "1.0" (some "X") 1),
           ("B.zip", ModRecord.mk (some "B") "1.0" (some "Y") 2)]
          [("A.zip", ModRecord.mk (some "A") "1.1" (some "X") 3),
           ("C.zip", ModRecord.mk (some "C") "1.0" (some "Z") 4)]).map Change.name).Nodup := by
  refine ⟨by decide, by decide, ?_⟩
  exact (detect_changes_order_and_uniqueness
      [("A.zip", ModRecord.mk (some "A") "1.0" (some "X") 1),
       ("B.zip", ModRecord.mk (some "B") "1.0" (some "Y") 2)]
      [("A.zip", ModRecord.mk (some "A") "1.1" (some "X") 3),
       ("C.zip", ModRecord.mk (some "C") "1.0" (some "Z") 4)]
      (by decide) (by decide)).2.1

/-- C9: `format_file_size` divides by 1024 repeatedly until the running
value drops below 1024, renders it with two decimal digits and the unit
B/KB/MB/GB/TB with the unit capped at TB (the spec-side characterisation
`formatSizeSpec`); in particular 1024 bytes render as 1.00 KB, 1536 bytes
as 1.50 KB and 0 bytes as 0.00 B. -/
theorem format_file_size_units :
    (∀ n : ℕ, format_file_size n = formatSizeSpec n)
    ∧ format_file_size 1024 = "1.00 KB"
    ∧ format_file_size 1536 = "1.50 KB"
    ∧ format_file_size 0 = "0.00 B" := by
  have key : ∀ n : ℕ, format_file_size n = formatSizeSpec n := by
    intro n
    rw [format_file_size, formatSizeSpec]
    have e1 : (n : ℚ) / 1024 = (n : ℚ) / 1024 ^ 1 := by norm_num
    have e2 : (n : ℚ) / 1024 ^ 1 / 1024 = (n : ℚ) / 1024 ^ 2 := by
      rw [div_div, ← pow_succ]
    have e3 : (n : ℚ) / 1024 ^ 2 / 1024 = (n : ℚ) / 1024 ^ 3 := by
      rw [div_div, ← pow_succ]
    have e4 : (n : ℚ) / 1024 ^ 3 / 1024 = (n : ℚ) / 1024 ^ 4 := by
      rw [div_div, ← pow_succ]
    by_cases h1 : (n : ℚ) < 1024
    · rw [fsLoop_cons, if_pos h1, if_pos h1, String.append_assoc]
      rfl
    · rw [fsLoop_cons, if_neg h1, if_neg h1, e1]
      by_cases h2 : (n : ℚ) < 1024 ^ 2
      · rw [fsLoop_cons, if_pos ((div_pow_lt_1024 _ 1).2 h2), if_pos h2, String.append_assoc]
        rfl
      · rw [fsLoop_cons, if_neg (fun h => h2 ((div_pow_lt_1024 _ 1).1 h)), if_neg h2, e2]
        by_cases h3 : (n : ℚ) < 1024 ^ 3
        · rw [fsLoop_cons, if_pos ((div_pow_lt_1024 _ 2).2 h3), if_pos h3, String.append_assoc]
          rfl
        · rw [fsLoop_cons, if_neg (fun h => h3 ((div_pow_lt_1024 _ 2).1 h)), if_neg h3, e3]
          by_cases h4 : (n : ℚ) < 1024 ^ 4
          · rw [fsLoop_cons, if_pos ((div_pow_lt_1024 _ 3).2 h4), if_pos h4,
              String.append_assoc]
            rfl
          · rw [fsLoop_cons, if_neg (fun h => h4 ((div_pow_lt_1024 _ 3).1 h)), if_neg h4, e4]
            rfl
  refine ⟨key, ?_, ?_, ?_⟩
  · have h1 : ¬ ((1024:ℕ) : ℚ) < 1024 := by norm_num
    have h2 : (((1024:ℕ) : ℚ)) / 1024 < 1024 := by norm_num
    have h3 : 100 * (((1024:ℕ) : ℚ) / 1024) = ((100 : ℤ) : ℚ) := by norm_num
    rw [format_file_size, fsLoop_cons, if_neg h1, fsLoop_cons, if_pos h2, twoDec, h3,
      roundHalfEven_intCast]
    decide
  · have h1 : ¬ ((1536:ℕ) : ℚ) < 1024 := by norm_num
    have h2 : (((1536:ℕ) : ℚ)) / 1024 < 1024 := by norm_num
    have h3 : 100 * (((1536:ℕ) : ℚ) / 1024) = ((150 : ℤ) : ℚ) := by norm_num
    rw [format_file_size, fsLoop_cons, if_neg h1, fsLoop_cons, if_pos h2, twoDec, h3,
      roundHalfEven_intCast]
    decide
  · have h1 : ((0:ℕ) : ℚ) < 1024 := by norm_num
    have h3 : 100 * ((0:ℕ) : ℚ) = ((0 : ℤ) : ℚ) := by norm_num
    rw [format_file_size, fsLoop_cons, if_pos h1, twoDec, h3, roundHalfEven_intCast]
    decide

/-- C7: loading the snapshot immediately after saving an inventory returns
the same mapping field for field, sentinel strings and null fields
included. -/
theorem snapshot_round_trip (inv : Inventory) :
    invOfJson (load_previous_state (save_current_state inv)) = some inv := by
  rw [save_current_state]
  exact invOfJson_encodeInv inv

/-- C6: whenever `extract_mod_info` takes a failure exit — unreadable
container, no `moddesc.xml` entry (case-insensitively), or a descriptor
that fails to parse — it returns, without raising, exactly the fallback
record: title is the display name with its extension stripped, version and
author are the sentinel string, and filesize is the caller-supplied
size. -/
theorem extract_mod_info_failure_fallback (zd : ZipData) (path : String) (size : Nat)
    (h : extractionFailed zd = true) :
    extract_mod_info zd path size =
      { title := some (pathStem path), version := "Unknown", author := some "Unknown",
        filesize := size } := by
  cases zd with
  | fail => rfl
  | ok names entryXml =>
    cases hm : names.find? (fun n => strHasSuffix (lowerStr n) "moddesc.xml") with
    | none => simp [extract_mod_info, hm, fallbackRecord]
    | some m =>
      simp only [extractionFailed, hm] at h
      cases hx : entryXml m with
      | none => simp [extract_mod_info, hm, hx, fallbackRecord]
      | some root =>
        rw [hx] at h
        simp at h

/-- Witness for `extract_mod_info_failure_fallback`: a blob that is not a
readable zip degrades to the stem of the display name and the sentinel
values. -/
theorem extract_mod_info_failure_fallback_witness :
    extractionFailed ZipData.fail = true
    ∧ extract_mod_info ZipData.fail "/mods/Example.zip" 7
        = { title := some "Example", version := "Unknown", author := some "Unknown",
            filesize := 7 } := by
  refine ⟨rfl, ?_⟩
  rw [extract_mod_info_failure_fallback ZipData.fail "/mods/Example.zip" 7 rfl]
  decide

/-- C3 counterexample: a descriptor whose `author` element is present but
empty makes `extract_mod_info` return a null author (Python `None`), not
the sentinel string claimed. -/
theorem extract_author_empty_element_cex :
    (extract_mod_info
        (ZipData.ok ["modDesc.xml"]
          (fun _ => some (XmlElem.mk "modDesc" [("descVersion", "98")] none
            (XmlForest.cons (XmlElem.mk "author" [] none XmlForest.nil) XmlForest.nil))))
        "/mods/M.zip" 5).author = none
    ∧ (none : Option String) ≠ some "Unknown" := by
  exact ⟨by decide, by decide⟩

/-- C3 as amended: every record returned by `extract_mod_info` has all
four fields, with filesize always the caller-supplied size and version
always a string; the author field defaults to the sentinel string exactly
when the parsed descriptor has no `author` descendant — an element present
with empty text instead contributes a null author. -/
theorem extract_author_default_when_absent (names : List String)
    (entryXml : String → Option XmlElem) (m : String) (root : XmlElem)
    (path : String) (size : Nat)
    (hm : names.find? (fun n => strHasSuffix (lowerStr n) "moddesc.xml") = some m)
    (hx : entryXml m = some root)
    (ha : findDescendant root "author" = none) :
    (∀ zd : ZipData, (extract_mod_info zd path size).filesize = size)
    ∧ (extract_mod_info (ZipData.ok names entryXml) path size).author = some "Unknown"
    ∧ (extract_mod_info (ZipData.ok names entryXml) path size).version
        = (root.getAttr "descVersion").getD "Unknown" := by
  refine ⟨fun zd => extract_mod_info_filesize zd path size, ?_, ?_⟩
  · simp [extract_mod_info, hm, hx, ha]
  · simp [extract_mod_info, hm, hx]

/-- Witness for `extract_author_default_when_absent`: a descriptor with no
author element at all yields the sentinel author. -/
theorem extract_author_default_when_absent_witness :
    (["modDesc.xml"].find? (fun n => strHasSuffix (lowerStr n) "moddesc.xml")
        = some "modDesc.xml")
    ∧ ((fun _ => some (XmlElem.mk "modDesc" [] none XmlForest.nil) :
          String → Option XmlElem) "modDesc.xml"
        = some (XmlElem.mk "modDesc" [] none XmlForest.nil))
    ∧ findDescendant (XmlElem.mk "modDesc" [] none XmlForest.nil) "author" = none
    ∧ (extract_mod_info
          (ZipData.ok ["modDesc.xml"]
            (fun _ => some (XmlElem.mk "modDesc" [] none XmlForest.nil)))
          "/mods/M.zip" 5).author = some "Unknown" := by
  refine ⟨by decide, rfl, rfl, ?_⟩
  exact (extract_author_default_when_absent ["modDesc.xml"]
    (fun _ => some (XmlElem.mk "modDesc" [] none XmlForest.nil)) "modDesc.xml"
    (XmlElem.mk "modDesc" [] none XmlForest.nil) "/mods/M.zip" 5
    (by decide) rfl rfl).2.1

/-- C4 counterexample: the very first observable state of a save is the
truncated (unreadable) file, and loading it yields the empty inventory —
neither the old snapshot nor the new one when both are nonempty, so an
interrupted save does not leave "either the old or the new" state. -/
theorem interrupted_save_neither_old_nor_new_cex :
    (save_write_states [("B.zip", ModRecord.mk (some "B") "2.0" (some "Y") 2)]).head?
        = some FileContent.unreadable
    ∧ invOfJson (load_previous_state FileContent.unreadable) = some ([] : Inventory)
    ∧ ([] : Inventory) ≠ [("A.zip", ModRecord.mk (some "A") "1.0" (some "X") 1)]
    ∧ ([] : Inventory) ≠ [("B.zip", ModRecord.mk (some "B") "2.0" (some "Y") 2)] := by
  exact ⟨rfl, rfl, by decide, by decide⟩

/-- C4 as amended: `save_current_state` truncates the file in place and is
not atomic; after an interruption at any observable point of the write the
next load never raises, but yields either the empty inventory (truncated
or partially written file, never valid JSON) or the completed new
snapshot — the old snapshot is already gone. -/
theorem interrupted_save_load_degrades (inv : Inventory) (st : FileContent)
    (h : st ∈ save_write_states inv) :
    invOfJson (load_previous_state st) = some ([] : Inventory)
    ∨ invOfJson (load_previous_state st) = some inv := by
  rcases List.mem_cons.1 h with h1 | h2
  · subst h1
    exact Or.inl rfl
  · rcases List.mem_cons.1 h2 with h3 | h4
    · subst h3
      rw [save_current_state]
      exact Or.inr (invOfJson_encodeInv inv)
    · simp at h4

/-- Witness for `interrupted_save_load_degrades`: interruption right after
the truncation leaves a file that loads as the empty inventory. -/
theorem interrupted_save_load_degrades_witness :
    FileContent.unreadable
        ∈ save_write_states [("B.zip", ModRecord.mk (some "B") "2.0" (some "Y") 2)]
    ∧ (invOfJson (load_previous_state FileContent.unreadable) = some ([] : Inventory)
      ∨ invOfJson (load_previous_state FileContent.unreadable)
          = some [("B.zip", ModRecord.mk (some "B") "2.0" (some "Y") 2)]) := by
  refine ⟨List.mem_cons_self _ _, ?_⟩
  exact interrupted_save_load_degrades [("B.zip", ModRecord.mk (some "B") "2.0" (some "Y") 2)]
    FileContent.unreadable (List.mem_cons_self _ _)

/-- C2 counterexample: with a failing directory listing and a nonempty
previous snapshot, the run is not aborted — the main body still attempts a
notification (here answered with status 204) and overwrites the snapshot
with the empty inventory, so the previously persisted state is lost. -/
theorem listing_failure_not_aborted_cex :
    (mainRun "/mods" none
        (FileContent.readable
          (encodeInv [("Old.zip", ModRecord.mk (some "O") "1.0" (some "X") 3)]))
        (HttpResult.ok 204)).finalFile
      = FileContent.readable (encodeInv [])
    ∧ (mainRun "/mods" none
        (FileContent.readable
          (encodeInv [("Old.zip", ModRecord.mk (some "O") "1.0" (some "X") 3)]))
        (HttpResult.ok 204)).notify
      = some { requests := 1, reportedSuccess := true, raised := false }
    ∧ encodeInv [("Old.zip", ModRecord.mk (some "O") "1.0" (some "X") 3)] ≠ encodeInv [] := by
  refine ⟨rfl, rfl, ?_⟩
  intro h
  simp [encodeInv] at h

/-- C2 as amended: when the directory listing fails, `get_current_mods`
absorbs the error into an empty inventory and the run continues: the diff
reports every previously known entry as removed, a notification is
attempted whenever the previous snapshot was nonempty, and the snapshot is
overwritten with the empty inventory. -/
theorem listing_failure_run_continues (modsPath : String) (stateFile : FileContent)
    (http : HttpResult) (hne : previousInvOf stateFile ≠ []) :
    (mainRun modsPath none stateFile http).finalFile = save_current_state []
    ∧ detect_changes (previousInvOf stateFile) []
        = (previousInvOf stateFile).map (fun p => Change.removed p.1 p.2)
    ∧ (mainRun modsPath none stateFile http).notify
        = some (send_discord_notification
            (detect_changes (previousInvOf stateFile) []) [] http) := by
  have hch : detect_changes (previousInvOf stateFile) []
      = (previousInvOf stateFile).map (fun p => Change.removed p.1 p.2) := by
    rw [detect_changes, removedChanges_nil_current]
    rfl
  refine ⟨rfl, hch, ?_⟩
  have hde : (detect_changes (previousInvOf stateFile) []).isEmpty = false := by
    rw [hch]
    cases hp : previousInvOf stateFile with
    | nil => exact absurd hp hne
    | cons q rest => rfl
  simp only [mainRun, get_current_mods, hde]
  rfl

/-- Witness for `listing_failure_run_continues`: a one-entry previous
snapshot is wiped to the empty snapshot when the listing fails. -/
theorem listing_failure_run_continues_witness :
    previousInvOf (FileContent.readable
        (encodeInv [("Old.zip", ModRecord.mk (some "O") "1.0" (some "X") 3)])) ≠ []
    ∧ (mainRun "/mods" none
        (FileContent.readable
          (encodeInv [("Old.zip", ModRecord.mk (some "O") "1.0" (some "X") 3)]))
        HttpResult.exn).finalFile = save_current_state [] := by
  refine ⟨by decide, ?_⟩
  exact (listing_failure_run_continues "/mods"
      (FileContent.readable
        (encodeInv [("Old.zip", ModRecord.mk (some "O") "1.0" (some "X") 3)]))
      HttpResult.exn (by decide)).1

/-- C8: on an empty change list the notification step returns before
building any payload — no HTTP request is issued — and comes back to its
caller without any error (the only failure signal the function has). -/
theorem notify_empty_changes_no_request (current : Inventory) (http : HttpResult) :
    (send_discord_notification [] current http).requests = 0
    ∧ (send_discord_notification [] current http).raised = false := ⟨rfl, rfl⟩

/-- C10: on a non-empty change list exactly one HTTP post is attempted,
classified as a success exactly when the response status is 204; any other
status and a raised request exception are reported as a failure line while
the function returns normally, and the snapshot written by the main run is
the same whatever the delivery outcome. -/
theorem notify_nonempty_single_post (changes : List Change) (current : Inventory)
    (http : HttpResult) (hne : changes ≠ []) :
    (send_discord_notification changes current http).requests = 1
    ∧ ((send_discord_notification changes current http).reportedSuccess = true
        ↔ http = HttpResult.ok 204)
    ∧ (send_discord_notification changes current http).raised = false
    ∧ ∀ (modsPath : String) (listing : Option (List RemoteFile)) (f : FileContent)
        (h1 h2 : HttpResult),
        (mainRun modsPath listing f h1).finalFile = (mainRun modsPath listing f h2).finalFile := by
  have he : changes.isEmpty = false := by
    cases changes with
    | nil => exact absurd rfl hne
    | cons c rest => rfl
  cases http with
  | ok status =>
    refine ⟨?_, ?_, ?_, ?_⟩
    · simp [send_discord_notification, he]
    · simp [send_discord_notification, he, beq_iff_eq]
    · simp [send_discord_notification, he]
    · intro _ _ _ _ _; rfl
  | exn =>
    refine ⟨?_, ?_, ?_, ?_⟩
    · simp [send_discord_notification, he]
    · simp [send_discord_notification, he]
    · simp [send_discord_notification, he]
    · intro _ _ _ _ _; rfl

/-- Witness for `notify_nonempty_single_post`: one added change with the
HTTP layer raising still makes exactly one attempt and does not raise. -/
theorem notify_nonempty_single_post_witness :
    ([Change.added "A.zip" (ModRecord.mk (some "A") "1.0" (some "X") 1)] ≠ [])
    ∧ (send_discord_notification
        [Change.added "A.zip" (ModRecord.mk (some "A") "1.0" (some "X") 1)] []
        HttpResult.exn).requests = 1
    ∧ (send_discord_notification
        [Change.added "A.zip" (ModRecord.mk (some "A") "1.0" (some "X") 1)] []
        HttpResult.exn).raised = false := by
  refine ⟨by decide, ?_, ?_⟩
  · exact (notify_nonempty_single_post
      [Change.added "A.zip" (ModRecord.mk (some "A") "1.0" (some "X") 1)] []
      HttpResult.exn (by decide)).1
  · exact (notify_nonempty_single_post
      [Change.added "A.zip" (ModRecord.mk (some "A") "1.0" (some "X") 1)] []
      HttpResult.exn (by decide)).2.2.1
